import Mathlib

/-!
Verification development for the FijiAnalysis batch pipeline
(`FijiAnalysis/ProcessFolder.py`).

The script is a Jython/ImageJ batch driver.  We give a shallow embedding of
its data model and of the functions the specification talks about:

* planes are lists of rows of integer intensities, stacks are lists of planes;
* host-library primitives (ImageCalculator subtraction, ParticleAnalyzer,
  Triangle auto-threshold, the shared ResultsTable appended to by `Measure`)
  are modelled from the specification's contracts where their code is not in
  the repository, and each such definition says so in its doc comment;
* the control flow of `run`, `process`, `determine_roi`,
  `apply_roi_and_measure`, `save_measurements_to_csv` and
  `compile_integrated_density` is translated directly from the source.
-/

namespace FijiAnalysis

/-- A 2-D plane: rows of integer pixel intensities. -/
abbrev Plane := List (List Int)

/-- A stack: an ordered list of planes (slice 1 is the head). -/
abbrev Stack := List Plane

/-- Modelled from the spec: ImageJ `ImageCalculator.run("Subtract create stack", ...)`
computes, per pixel, `max(0, a - b)` (clamped at zero).  This is the per-plane
kernel. -/
def subtractPlane (p bg : Plane) : Plane :=
  List.zipWith (fun r br => List.zipWith (fun a b => max 0 (a - b)) r br) p bg

/-- `subtract_background(imp, background_imp)` (ProcessFolder.py lines 156-158):
the background plane is subtracted, clamped at zero, from every slice of the
input stack; the host call is modelled from the spec by `subtractPlane`. -/
def subtract_background (stack : Stack) (bg : Plane) : Stack :=
  stack.map (fun p => subtractPlane p bg)

/-- Row-by-row dimension agreement of two planes. -/
def rowsMatch : Plane → Plane → Bool
  | [], [] => true
  | r :: p, br :: bgp => r.length == br.length && rowsMatch p bgp
  | _, _ => false

/-- Dimension agreement between a stack and a background plane, as a decidable
boolean so that witnesses can evaluate it. -/
def dimsOk (stack : Stack) (bg : Plane) : Bool :=
  stack.all (fun p => rowsMatch p bg)

/-- Pixel `(j, k)` of a plane, defaulting to `0` outside the plane. -/
def planePix (p : Plane) (j k : Nat) : Int :=
  (p.getD j []).getD k 0

/-- Pixel `(j, k)` of slice `i` of a stack, defaulting to `0` outside. -/
def pix (s : Stack) (i j k : Nat) : Int :=
  planePix (s.getD i []) j k

/-- A connected component of the binary mask, as the Segmenter sees it:
its pixel area and the width/height of its bounding rectangle. -/
structure Component where
  area : Nat
  bw : Nat
  bh : Nat
deriving DecidableEq

/-- Bounding-box area `r.getBounds().width * r.getBounds().height` used as the
selection key in `determine_roi` (line 193). -/
def bboxArea (c : Component) : Nat := c.bw * c.bh

/-- Modelled from the spec: `ParticleAnalyzer(..., rt, 50.0, float('inf'), 0.0, 1.0)`
(line 186) keeps exactly the connected components whose pixel area lies in
`[50, ∞)`. -/
def particleKeep (cs : List Component) : List Component :=
  cs.filter (fun c => 50 ≤ c.area)

/-- One comparison step of Python's `max` with a key function: keep the
current best unless the new element's key is strictly larger. -/
def maxStep (key : Component → Nat) (best x : Component) : Component :=
  if key best < key x then x else best

/-- Python `max(iterable, key=f)`: fold keeping the current element unless a
strictly larger key appears, so the first-encountered maximum wins ties.
Mirrors `max(rois, key=lambda r: r.getBounds().width * r.getBounds().height)`
(line 193); `none` on the empty list mirrors the `if not rois: return None`
guard (lines 190-192). -/
def pyMaxBy (key : Component → Nat) : List Component → Option Component
  | [] => none
  | c :: cs => some (cs.foldl (maxStep key) c)

/-- `determine_roi` component-selection stage (lines 185-194): analyze the mask
components, and return the bounding-box-largest surviving component. -/
def determine_roi (cs : List Component) : Option Component :=
  pyMaxBy bboxArea (particleKeep cs)

/-- The threshold actually set on the processor, plus whether the fallback
warning was printed. -/
structure ThresholdState where
  lo : Int
  hi : Int
  warned : Bool
deriving DecidableEq

/-- Lines 180-183 of `determine_roi`: `setAutoThreshold("Triangle dark")`
followed by the `NO_THRESHOLD` check.  The auto-threshold outcome is passed in
(`none` models `getMinThreshold() == ImageProcessor.NO_THRESHOLD`); on failure
the script logs a warning and sets the manual threshold `(50, 255)`. -/
def setThresholdStep (autoResult : Option (Int × Int)) : ThresholdState :=
  match autoResult with
  | some lh => { lo := lh.1, hi := lh.2, warned := false }
  | none => { lo := 50, hi := 255, warned := true }

/-- A plane whose pixels are all equal (includes the all-zero plane), as a
decidable boolean. -/
def allEqualPlane (p : Plane) : Bool :=
  match p.flatten with
  | [] => true
  | v :: vs => vs.all (fun w => w == v)

/-- One row of the ImageJ results table as read by the Measurer:
Area, Min, Max, IntDen, Mean, RawIntDen.  Intensities are modelled as
integers. -/
structure MeasureRow where
  area : Int
  minv : Int
  maxv : Int
  intden : Int
  mean : Int
  rawintden : Int
deriving DecidableEq

/-- One iteration of the measuring loop (ProcessFolder.py lines 203-220).
`measure i` models `IJ.run(imp, "Measure", "")` on slice `i`: it appends one
row to the process-wide results table when the measurement mechanism yields
data for the slice and appends nothing otherwise (modelled from the spec; the
table itself is host state).  The state is the current results table paired
with the accumulated `measurements` list; the `rt.getCounter() == 0` test and
the reads at row `rt.getCounter() - 1` are the `getLast?` match. -/
def measureStep (measure : Nat → Option MeasureRow)
    (st : List MeasureRow × List (MeasureRow × Nat)) (i : Nat) :
    List MeasureRow × List (MeasureRow × Nat) :=
  let rt := st.1 ++ (measure i).toList
  match rt.getLast? with
  | none => (rt, st.2)
  | some last => (rt, st.2 ++ [(last, i)])

/-- `apply_roi_and_measure(imp, roi)` (lines 197-223): loop the measuring step
over slices `1..N`.  `rt0` is the content of the process-wide results table
when the function is entered — the script never clears it. -/
def apply_roi_and_measure (measure : Nat → Option MeasureRow) (N : Nat)
    (rt0 : List MeasureRow) : List MeasureRow × List (MeasureRow × Nat) :=
  (List.range' 1 N).foldl (measureStep measure) (rt0, [])

/-- The results table after the loop has processed slices `1..i`: the initial
table followed by every row the mechanism appended. -/
def rtAfter (measure : Nat → Option MeasureRow) (rt0 : List MeasureRow)
    (i : Nat) : List MeasureRow :=
  rt0 ++ (List.range' 1 i).filterMap measure

/-- Outcome of `save_measurements_to_csv` (lines 226-234) on the file system:
whether the per-file CSV was created and the rows written into it.
`open(output_path, 'wb')` creates (truncates) the file unconditionally; the
header and data rows are written only under `if measurements:`. -/
structure CsvFile where
  created : Bool
  content : List (List String)
deriving DecidableEq

/-- The fixed header row written by `save_measurements_to_csv` (line 231). -/
def measurementHeader : List String :=
  ["Area", "Min", "Max", "IntDen", "Mean", "RawIntDen", "Stack Position"]

/-- CSV serialization of one measurement tuple. -/
def measurementRow (m : MeasureRow × Nat) : List String :=
  [toString m.1.area, toString m.1.minv, toString m.1.maxv, toString m.1.intden,
   toString m.1.mean, toString m.1.rawintden, toString m.2]

/-- `save_measurements_to_csv(measurements, output_dir, file_name)`
(lines 226-234). -/
def save_measurements_to_csv (measurements : List (MeasureRow × Nat)) : CsvFile :=
  { created := true
  , content :=
      if measurements.isEmpty then []
      else measurementHeader :: measurements.map measurementRow }

/-- A sample results-table row used by the concrete instances below. -/
def crow : MeasureRow := ⟨1, 0, 5, 10, 2, 10⟩

/-- A measurement mechanism that yields data for slice 1 only. -/
def cexMeasure : Nat → Option MeasureRow :=
  fun i => if i = 1 then some crow else none

/-- Python's substring test `needle in hay`, over character lists. -/
def containsSeq (needle : List Char) : List Char → Bool
  | [] => needle.isEmpty
  | c :: t => needle.isPrefixOf (c :: t) || containsSeq needle t

/-- Python `needle in hay` on strings. -/
def strContains (hay needle : String) : Bool :=
  containsSeq needle.data hay.data

/-- Python `s.endswith(suffix)`. -/
def strEndsWith (s suffix : String) : Bool :=
  suffix.data.isSuffixOf s.data

/-- `os.path.join` for the paths the driver builds. -/
def joinPath (a b : String) : String := a ++ "/" ++ b

/-- The filename tests of the `run` loop (lines 33-35): skip when a non-empty
`fileFilter` is not contained in the name, then require the `ext` suffix. -/
def matchesFile (fileFilter ext fileName : String) : Bool :=
  (fileFilter.data.isEmpty || strContains fileName fileFilter) && strEndsWith fileName ext

/-- Image-loading events of one batch run.  `process` (lines 86-117) calls
`open_image` exactly twice: on the source path (line 91) and, when that
succeeded, on the background path (line 96); no later stage opens a file. -/
inductive Ev where
  | loadSrc (path : String) (ok : Bool)
  | loadBg (path : String) (ok : Bool)
deriving DecidableEq

/-- The image loads performed by one `process(...)` call (lines 86-99):
open the source image, return early if that failed, then open the background
image from `backgroundImagePath`, and return early if that failed. -/
def processLoads (srcOk : String → Bool) (bgOk : Bool)
    (imagePath bgPath : String) : List Ev :=
  if srcOk imagePath then
    if bgOk then [Ev.loadSrc imagePath true, Ev.loadBg bgPath true]
    else [Ev.loadSrc imagePath true, Ev.loadBg bgPath false]
  else [Ev.loadSrc imagePath false]

/-- The image loads performed by the whole `run()` walk (lines 31-42): the
matched files in walk order, each contributing its `process` loads.  `walk`
is the `os.walk` result as (root, fileNames) pairs. -/
def runLoadTrace (fileFilter ext : String) (walk : List (String × List String))
    (srcOk : String → Bool) (bgOk : Bool) (bgPath : String) : List Ev :=
  walk.foldl (fun acc rf =>
    rf.2.foldl (fun acc2 fileName =>
      if matchesFile fileFilter ext fileName then
        acc2 ++ processLoads srcOk bgOk (joinPath rf.1 fileName) bgPath
      else acc2) acc) []

/-- Recognizer for background-load events. -/
def isBgLoad : Ev → Bool
  | Ev.loadBg _ _ => true
  | _ => false

/-- Number of times the background image file is opened during a batch. -/
def bgLoadCount (tr : List Ev) : Nat := tr.countP isBgLoad

/-- The `run()` loop with per-file outcomes (lines 31-42): each matched file
is attempted with `process`; a raised exception is caught at the per-file
boundary (`except Exception: traceback.print_exc()`), modelled as an
`Except.error` value that is recorded while the fold continues. -/
def run_results (fileFilter ext : String) (walk : List (String × List String))
    (procResult : String → Except String Unit) :
    List (String × Except String Unit) :=
  walk.foldl (fun acc rf =>
    rf.2.foldl (fun acc2 fileName =>
      if matchesFile fileFilter ext fileName then
        acc2 ++ [(joinPath rf.1 fileName, procResult (joinPath rf.1 fileName))]
      else acc2) acc) []

/-- The full paths of the files the walk matches, in walk order. -/
def matchedPaths (fileFilter ext : String) (walk : List (String × List String)) :
    List String :=
  walk.flatMap (fun rf => (rf.2.filter (matchesFile fileFilter ext)).map (joinPath rf.1))

/-- One row of an input CSV as `csv.DictReader` presents it to the compiler:
the values of the `IntDen` and `RawIntDen` fields when those columns exist. -/
structure CsvRowIn where
  intden : Option String
  rawintden : Option String
deriving DecidableEq

/-- Ordered dictionary from file name to a list of extracted values.
Modelled from the spec: the Python `defaultdict(list)` is modelled with
insertion-ordered keys, matching the file-processing order the spec
ascribes to dictionary iteration. -/
abbrev DictSL := List (String × List String)

/-- Keys of the dictionary in insertion order (`d.keys()`). -/
def dictKeys (d : DictSL) : List String := d.map Prod.fst

/-- Values of the dictionary in key order (`d.values()`). -/
def dictValues (d : DictSL) : List (List String) := d.map Prod.snd

/-- `d[k].append(v)` on a `defaultdict(list)`: append to the existing entry,
or create the key with a one-element list. -/
def dictAppend : DictSL → String → String → DictSL
  | [], k, v => [(k, [v])]
  | (k0, l0) :: rest, k, v =>
    if k0 == k then (k0, l0 ++ [v]) :: rest
    else (k0, l0) :: dictAppend rest k v

/-- Lookup `d[k]` without creating the key (empty list when absent). -/
def dictGet (d : DictSL) (k : String) : List String :=
  match d.find? (fun kv => kv.1 == k) with
  | some kv => kv.2
  | none => []

/-- A bare `d[k]` access on a `defaultdict(list)` (line 69) creates the key
with an empty list when it is absent. -/
def dictTouch (d : DictSL) (k : String) : DictSL :=
  if (dictKeys d).contains k then d else d ++ [(k, [])]

/-- The row loop of lines 64-68 restricted to one of the two dictionaries:
append the selected field's value for every row where the field is present. -/
def rowsFold (sel : CsvRowIn → Option String) (k : String) (rows : List CsvRowIn)
    (d : DictSL) : DictSL :=
  rows.foldl (fun d row =>
    match sel row with
    | some v => dictAppend d k v
    | none => d) d

/-- Lines 62-69 of `compile_integrated_density` for one CSV file: append every
present `IntDen` (resp. `RawIntDen`) value to that file's entry, then the
`len(...)` accesses of line 69 touch both dictionaries and update
`max_length`.  The two dictionaries are updated independently, so the row
loop is folded per dictionary. -/
def compileFileStep (st : DictSL × DictSL × Nat) (f : String × List CsvRowIn) :
    DictSL × DictSL × Nat :=
  let d1 := dictTouch (rowsFold (fun r => r.intden) f.1 f.2 st.1) f.1
  let d2 := dictTouch (rowsFold (fun r => r.rawintden) f.1 f.2 st.2.1) f.1
  (d1, d2, max st.2.2 (max (dictGet d1 f.1).length (dictGet d2 f.1).length))

/-- Python `zip(*lists)`: transpose truncated to the shortest list. -/
def pyZipStar (ls : List (List String)) : List (List String) :=
  match ls with
  | [] => []
  | l0 :: rest =>
    let n := rest.foldl (fun m l => min m l.length) l0.length
    (List.range n).map (fun i => ls.map (fun l => l.getD i ""))

/-- `compile_integrated_density(csv_dir)` (lines 54-84).  `files` is the
`os.listdir` result paired with each file's parsed rows; the function itself
keeps only names ending in `.csv` (line 60), accumulates both dictionaries
with the running `max_length`, pads every list to `max_length` with `''`
(lines 72-75), and emits the header row followed by the zipped data rows
(lines 80-82).  Returns (headers, data rows). -/
def compile_integrated_density (files : List (String × List CsvRowIn)) :
    List String × List (List String) :=
  let st := files.foldl
    (fun st f => if strEndsWith f.1 ".csv" then compileFileStep st f else st)
    (([] : DictSL), ([] : DictSL), 0)
  let maxLen := st.2.2
  let d1 := st.1.map (fun kv => (kv.1, kv.2 ++ List.replicate (maxLen - kv.2.length) ""))
  let d2 := st.2.1.map (fun kv => (kv.1, kv.2 ++ List.replicate (maxLen - kv.2.length) ""))
  ((dictKeys d1).map (fun k => "IntDen_" ++ k) ++
     (dictKeys d2).map (fun k => "RawIntDen_" ++ k),
   pyZipStar (dictValues d1 ++ dictValues d2))

end FijiAnalysis

namespace FijiAnalysis

/-- Every pixel accessor applied to a subtracted plane is non-negative,
defaults included. -/
lemma planePix_subtractPlane_nonneg (p bg : Plane) (j k : Nat) :
    0 ≤ planePix (subtractPlane p bg) j k := by
  unfold planePix subtractPlane
  simp only [List.getD_eq_getElem?_getD]
  rw [List.getElem?_zipWith']
  rcases hp : p[j]? with _ | r
  · simp
  · rcases hb : bg[j]? with _ | s
    · simp
    · simp only [Option.map_some', Option.some_bind, Option.getD_some]
      rw [List.getElem?_zipWith']
      rcases hr : r[k]? with _ | a
      · simp
      · rcases hs : s[k]? with _ | b
        · simp
        · simp

/-- Pointwise description of `subtractPlane` inside the common bounds. -/
lemma planePix_subtractPlane (p bg : Plane) (j k : Nat)
    (hj1 : j < p.length) (hj2 : j < bg.length)
    (hk1 : k < (p.getD j []).length) (hk2 : k < (bg.getD j []).length) :
    planePix (subtractPlane p bg) j k = max 0 (planePix p j k - planePix bg j k) := by
  have hk1' : k < p[j].length := by
    simpa [List.getD_eq_getElem?_getD, List.getElem?_eq_getElem hj1] using hk1
  have hk2' : k < bg[j].length := by
    simpa [List.getD_eq_getElem?_getD, List.getElem?_eq_getElem hj2] using hk2
  unfold planePix subtractPlane
  simp only [List.getD_eq_getElem?_getD]
  rw [List.getElem?_zipWith', List.getElem?_eq_getElem hj1,
    List.getElem?_eq_getElem hj2]
  simp only [Option.map_some', Option.some_bind, Option.getD_some]
  rw [List.getElem?_zipWith', List.getElem?_eq_getElem hk1',
    List.getElem?_eq_getElem hk2']
  simp [List.getElem?_eq_getElem hj1, List.getElem?_eq_getElem hj2,
    List.getElem?_eq_getElem hk1', List.getElem?_eq_getElem hk2']

/-- A `rowsMatch` check gives equal plane heights. -/
lemma rowsMatch_length {p bg : Plane} (h : rowsMatch p bg = true) :
    p.length = bg.length := by
  induction p generalizing bg with
  | nil => cases bg with
    | nil => rfl
    | cons b bgt => simp [rowsMatch] at h
  | cons r pt ih => cases bg with
    | nil => simp [rowsMatch] at h
    | cons b bgt =>
      simp only [rowsMatch, Bool.and_eq_true] at h
      simp [ih h.2]

/-- A `rowsMatch` check gives equal row widths at every in-range row. -/
lemma rowsMatch_row {p bg : Plane} (h : rowsMatch p bg = true) (j : Nat)
    (hj : j < p.length) :
    (p.getD j []).length = (bg.getD j []).length := by
  induction p generalizing bg j with
  | nil => simp at hj
  | cons r pt ih => cases bg with
    | nil => simp [rowsMatch] at h
    | cons b bgt =>
      simp only [rowsMatch, Bool.and_eq_true, beq_iff_eq] at h
      cases j with
      | zero => simpa using h.1
      | succ j =>
        have hj' : j < pt.length := by simpa using hj
        simpa using ih h.2 j hj'

/-- C2.  For every input stack and background plane of matching dimensions,
`subtract_background` returns a stack with the same slice count and order in
which every pixel equals `max 0 (input - background)`; in particular every
output pixel (defaults included) is non-negative. -/
theorem subtract_background_spec (stack : Stack) (bg : Plane)
    (hd : dimsOk stack bg = true) :
    (subtract_background stack bg).length = stack.length ∧
    (∀ i, (subtract_background stack bg).getD i [] = subtractPlane (stack.getD i []) bg ∨
      (subtract_background stack bg).getD i [] = []) ∧
    (∀ i j k, 0 ≤ pix (subtract_background stack bg) i j k) ∧
    (∀ i j k, i < stack.length → j < (stack.getD i []).length →
      k < ((stack.getD i []).getD j []).length →
      pix (subtract_background stack bg) i j k =
        max 0 (pix stack i j k - planePix bg j k)) := by
  have hmatch : ∀ i, i < stack.length → rowsMatch (stack.getD i []) bg = true := by
    intro i hi
    have hmem : stack[i] ∈ stack := List.getElem_mem hi
    have := List.all_eq_true.mp hd _ hmem
    simpa [List.getD_eq_getElem?_getD, List.getElem?_eq_getElem hi] using this
  have hrow : ∀ i, (subtract_background stack bg).getD i [] =
      subtractPlane (stack.getD i []) bg ∨
      (subtract_background stack bg).getD i [] = [] := by
    intro i
    rcases Nat.lt_or_ge i stack.length with hi | hi
    · left
      simp [subtract_background, List.getD_eq_getElem?_getD, List.getElem?_map,
        List.getElem?_eq_getElem hi]
    · right
      have : stack.length ≤ i := hi
      simp [subtract_background, List.getD_eq_getElem?_getD,
        List.getElem?_eq_none (by simpa using this)]
  refine ⟨by simp [subtract_background], hrow, ?_, ?_⟩
  · intro i j k
    rcases hrow i with h | h
    · rw [pix, h]
      exact planePix_subtractPlane_nonneg _ _ _ _
    · rw [pix, h]
      simp [planePix]
  · intro i j k hi hj hk
    have hb := hmatch i hi
    have hjlen : (stack.getD i []).length = bg.length := rowsMatch_length hb
    have hj2 : j < bg.length := hjlen ▸ hj
    have hk2 : k < (bg.getD j []).length := rowsMatch_row hb j hj ▸ hk
    have hget : (subtract_background stack bg).getD i [] =
        subtractPlane (stack.getD i []) bg := by
      simp [subtract_background, List.getD_eq_getElem?_getD, List.getElem?_map,
        List.getElem?_eq_getElem hi]
    rw [pix, hget, planePix_subtractPlane _ _ _ _ hj hj2 hk hk2]
    rfl

/-- C2 witness at a concrete 1-slice stack and matching background. -/
theorem subtract_background_spec_witness :
    dimsOk [[[5, 1], [0, 3]]] [[2, 2], [2, 2]] = true ∧
    (subtract_background [[[5, 1], [0, 3]]] [[2, 2], [2, 2]]).length = 1 ∧
    pix (subtract_background [[[5, 1], [0, 3]]] [[2, 2], [2, 2]]) 0 0 0 = max 0 (5 - 2) := by
  have h := subtract_background_spec [[[5, 1], [0, 3]]] [[2, 2], [2, 2]] (by decide)
  refine ⟨by decide, h.1, ?_⟩
  have := h.2.2.2 0 0 0 (by decide) (by decide) (by decide)
  simpa using this

/-- The fold of Python's `max(..., key=...)`: the result dominates the
accumulator and every list element, and it is either the accumulator itself
or the first list element that strictly improves on everything before it. -/
lemma foldl_maxStep_spec (key : Component → Nat) :
    ∀ (l : List Component) (c : Component),
      (∀ x ∈ l, key x ≤ key (l.foldl (maxStep key) c)) ∧
      key c ≤ key (l.foldl (maxStep key) c) ∧
      (l.foldl (maxStep key) c = c ∨
        ∃ l₁ l₂, l = l₁ ++ (l.foldl (maxStep key) c) :: l₂ ∧
          key c < key (l.foldl (maxStep key) c) ∧
          ∀ x ∈ l₁, key x < key (l.foldl (maxStep key) c)) := by
  intro l
  induction l with
  | nil => intro c; exact ⟨by simp, le_refl _, Or.inl rfl⟩
  | cons x t ih =>
    intro c
    by_cases hx : key c < key x
    · have hfold : (x :: t).foldl (maxStep key) c = t.foldl (maxStep key) x := by
        simp [List.foldl_cons, maxStep, hx]
      obtain ⟨ihA, ihB, ihC⟩ := ih x
      rw [hfold]
      refine ⟨?_, ?_, ?_⟩
      · intro y hy
        rcases List.mem_cons.mp hy with rfl | hy
        · exact ihB
        · exact ihA y hy
      · exact le_of_lt (lt_of_lt_of_le hx ihB)
      · rcases ihC with heq | ⟨l₁, l₂, hsplit, hlt, hall⟩
        · refine Or.inr ⟨[], t, ?_, ?_, by simp⟩
          · rw [heq]; simp
          · rw [heq]; exact hx
        · refine Or.inr ⟨x :: l₁, l₂, ?_, ?_, ?_⟩
          · rw [List.cons_append, ← hsplit]
          · exact lt_of_lt_of_le hx (le_of_lt hlt)
          · intro y hy
            rcases List.mem_cons.mp hy with rfl | hy
            · exact hlt
            · exact hall y hy
    · have hfold : (x :: t).foldl (maxStep key) c = t.foldl (maxStep key) c := by
        simp [List.foldl_cons, maxStep, hx]
      obtain ⟨ihA, ihB, ihC⟩ := ih c
      rw [hfold]
      refine ⟨?_, ihB, ?_⟩
      · intro y hy
        rcases List.mem_cons.mp hy with rfl | hy
        · exact le_trans (Nat.le_of_not_lt hx) ihB
        · exact ihA y hy
      · rcases ihC with heq | ⟨l₁, l₂, hsplit, hlt, hall⟩
        · exact Or.inl heq
        · refine Or.inr ⟨x :: l₁, l₂, ?_, hlt, ?_⟩
          · rw [List.cons_append, ← hsplit]
          · intro y hy
            rcases List.mem_cons.mp hy with rfl | hy
            · exact lt_of_le_of_lt (Nat.le_of_not_lt hx) hlt
            · exact hall y hy

/-- Characterization of `pyMaxBy`: a returned element is a member that
dominates the whole list and is preceded only by strictly smaller keys, so
the first-encountered maximum wins ties. -/
lemma pyMaxBy_spec (key : Component → Nat) (l : List Component) (c : Component)
    (h : pyMaxBy key l = some c) :
    c ∈ l ∧ (∀ d ∈ l, key d ≤ key c) ∧
    ∃ l₁ l₂, l = l₁ ++ c :: l₂ ∧ ∀ d ∈ l₁, key d < key c := by
  cases l with
  | nil => simp [pyMaxBy] at h
  | cons c0 t =>
    simp only [pyMaxBy, Option.some_inj] at h
    obtain ⟨hA, hB, hC⟩ := foldl_maxStep_spec key t c0
    rw [h] at hA hB hC
    have hdom : ∀ d ∈ c0 :: t, key d ≤ key c := by
      intro d hd
      rcases List.mem_cons.mp hd with rfl | hd
      · exact hB
      · exact hA d hd
    rcases hC with heq | ⟨l₁, l₂, hsplit, hlt, hall⟩
    · refine ⟨?_, hdom, [], t, ?_, by simp⟩
      · rw [← heq]; exact List.mem_cons_self _ _
      · rw [← heq]; simp
    · refine ⟨?_, hdom, c0 :: l₁, l₂, ?_, ?_⟩
      · rw [hsplit]
        exact List.mem_cons.mpr (Or.inr (by simp))
      · rw [List.cons_append, ← hsplit]
      · intro d hd
        rcases List.mem_cons.mp hd with rfl | hd
        · exact hlt
        · exact hall d hd

/-- C1.  The ROI returned by the Segmenter: components with pixel area below
50 are excluded while area ≥ 50 (area 50 included, no upper bound) survives,
and the returned component is a surviving component whose bounding-box area
(width times height) dominates all survivors and is preceded in the survivor
list only by components of strictly smaller bounding-box area — so the
first-encountered component wins ties. -/
theorem determine_roi_spec (cs : List Component) (c : Component)
    (h : determine_roi cs = some c) :
    (∀ d ∈ cs, d.area < 50 → d ∉ particleKeep cs) ∧
    (∀ d ∈ cs, 50 ≤ d.area → d ∈ particleKeep cs) ∧
    c ∈ particleKeep cs ∧ 50 ≤ c.area ∧
    (∀ d ∈ particleKeep cs, bboxArea d ≤ bboxArea c) ∧
    ∃ l₁ l₂, particleKeep cs = l₁ ++ c :: l₂ ∧ ∀ d ∈ l₁, bboxArea d < bboxArea c := by
  have hexcl : ∀ d ∈ cs, d.area < 50 → d ∉ particleKeep cs := by
    intro d _ hlt hmem
    have := (List.mem_filter.mp hmem).2
    simp only [decide_eq_true_eq] at this
    omega
  have hincl : ∀ d ∈ cs, 50 ≤ d.area → d ∈ particleKeep cs := by
    intro d hd hge
    exact List.mem_filter.mpr ⟨hd, by simpa using hge⟩
  unfold determine_roi at h
  obtain ⟨hmem, hdom, hsplit⟩ := pyMaxBy_spec bboxArea (particleKeep cs) c h
  have harea : 50 ≤ c.area := by
    have := (List.mem_filter.mp hmem).2
    simpa using this
  exact ⟨hexcl, hincl, hmem, harea, hdom, hsplit⟩

/-- C1 witness: areas 49/50/60 with a bounding-box tie between the second and
third component; the first-encountered maximum is returned. -/
theorem determine_roi_spec_witness :
    determine_roi [⟨49, 9, 9⟩, ⟨50, 5, 5⟩, ⟨60, 25, 1⟩] = some ⟨50, 5, 5⟩ ∧
    (⟨49, 9, 9⟩ : Component) ∉ particleKeep [⟨49, 9, 9⟩, ⟨50, 5, 5⟩, ⟨60, 25, 1⟩] ∧
    ∀ d ∈ particleKeep [⟨49, 9, 9⟩, ⟨50, 5, 5⟩, ⟨60, 25, 1⟩],
      bboxArea d ≤ bboxArea ⟨50, 5, 5⟩ := by
  have h := determine_roi_spec [⟨49, 9, 9⟩, ⟨50, 5, 5⟩, ⟨60, 25, 1⟩] ⟨50, 5, 5⟩ (by decide)
  exact ⟨by decide, h.1 _ (by decide) (by decide), h.2.2.2.2.1⟩

/-- C5.  Whenever the Triangle auto-threshold fails to produce a valid cut
(`NO_THRESHOLD`, modelled by `none`), the threshold step is still total (no
crash), records the warning, and sets the manual threshold `[50, 255]`; in
particular this holds for every all-zero or all-equal projected plane under
any auto-threshold function that fails on degenerate flat histograms. -/
theorem setThresholdStep_fallback :
    (∀ autoResult : Option (Int × Int), autoResult = none →
      setThresholdStep autoResult = { lo := 50, hi := 255, warned := true }) ∧
    ∀ triangle : Plane → Option (Int × Int),
      (∀ p, allEqualPlane p = true → triangle p = none) →
      ∀ p, allEqualPlane p = true →
        setThresholdStep (triangle p) = { lo := 50, hi := 255, warned := true } := by
  constructor
  · intro autoResult h
    rw [h]
    rfl
  · intro triangle hspec p hp
    rw [hspec p hp]
    rfl

/-- C5 witness: an all-equal 2×2 plane under an auto-threshold that fails on
flat histograms gets the manual `[50, 255]` threshold with the warning. -/
theorem setThresholdStep_fallback_witness :
    allEqualPlane [[3, 3], [3, 3]] = true ∧
    setThresholdStep ((fun _ : Plane => (none : Option (Int × Int))) [[3, 3], [3, 3]]) =
      { lo := 50, hi := 255, warned := true } := by
  refine ⟨by decide, ?_⟩
  exact setThresholdStep_fallback.2 (fun _ => none) (fun _ _ => rfl) [[3, 3], [3, 3]] (by decide)

/-- C6 counterexample.  With an empty measurement list the script still
creates (truncates) the per-file CSV file at the output path — `open(...,
'wb')` runs before the `if measurements:` guard — so "no per-file CSV is
written" fails; only the contents are empty. -/
theorem save_measurements_empty_cex :
    (save_measurements_to_csv []).created = true ∧
    (save_measurements_to_csv []).content = [] := by
  decide

/-- C6 amended.  `save_measurements_to_csv` always creates the output file;
it writes no rows at all (not even the header) exactly when the measurement
list is empty, and otherwise writes the fixed header followed by one row per
measurement. -/
theorem save_measurements_to_csv_spec (measurements : List (MeasureRow × Nat)) :
    (save_measurements_to_csv measurements).created = true ∧
    ((save_measurements_to_csv measurements).content = [] ↔ measurements = []) ∧
    (measurements ≠ [] →
      (save_measurements_to_csv measurements).content =
        measurementHeader :: measurements.map measurementRow) := by
  refine ⟨rfl, ?_, ?_⟩
  · unfold save_measurements_to_csv
    rcases measurements with _ | ⟨m, ms⟩
    · simp
    · simp
  · intro hne
    unfold save_measurements_to_csv
    simp [hne]

/-- C6 amended witness at an empty and a one-element measurement list. -/
theorem save_measurements_to_csv_spec_witness :
    (save_measurements_to_csv []).content = [] ∧
    (save_measurements_to_csv [(crow, 1)]).content =
      measurementHeader :: [measurementRow (crow, 1)] := by
  refine ⟨((save_measurements_to_csv_spec []).2.1).mpr rfl, ?_⟩
  have h := (save_measurements_to_csv_spec [(crow, 1)]).2.2 (by simp)
  simpa using h

/-- The results table grows by the mechanism's output on the next slice. -/
lemma rtAfter_succ (measure : Nat → Option MeasureRow) (rt0 : List MeasureRow)
    (i : Nat) :
    rtAfter measure rt0 (i + 1) = rtAfter measure rt0 i ++ (measure (i + 1)).toList := by
  have h1 : (1 : Nat) + i = i + 1 := Nat.add_comm 1 i
  cases hm : measure (i + 1) with
  | none =>
    simp [rtAfter, List.range'_1_concat, h1, List.filterMap_append,
      List.filterMap_cons, hm]
  | some row =>
    simp [rtAfter, List.range'_1_concat, h1, List.filterMap_append,
      List.filterMap_cons, hm]

/-- Closed form of the measuring loop: the final results table is `rtAfter N`,
and the measurements list has one record per slice whose table was non-empty
after that slice's `Measure` call, holding the table's last row. -/
lemma apply_roi_and_measure_eq (measure : Nat → Option MeasureRow)
    (rt0 : List MeasureRow) :
    ∀ N, apply_roi_and_measure measure N rt0 =
      (rtAfter measure rt0 N,
       (List.range' 1 N).filterMap
         (fun i => ((rtAfter measure rt0 i).getLast?).map (fun r => (r, i)))) := by
  intro N
  induction N with
  | zero => simp [apply_roi_and_measure, rtAfter]
  | succ n ih =>
    have h1 : (1 : Nat) + n = n + 1 := Nat.add_comm 1 n
    unfold apply_roi_and_measure
    rw [List.range'_1_concat, List.foldl_append, h1]
    have hbase : (List.range' 1 n).foldl (measureStep measure) (rt0, []) =
        apply_roi_and_measure measure n rt0 := rfl
    rw [hbase, ih]
    simp only [List.foldl_cons, List.foldl_nil]
    unfold measureStep
    rw [← rtAfter_succ]
    rw [List.filterMap_append]
    cases hl : (rtAfter measure rt0 (n + 1)).getLast? with
    | none => simp [hl]
    | some last => simp [hl]

/-- If a function pins down the produced `some` value at every list element,
the second components of a `filterMap` reproduce the list. -/
lemma map_snd_filterMap_eq (g : Nat → Option (MeasureRow × Nat)) :
    ∀ l : List Nat, (∀ i ∈ l, ∃ r, g i = some (r, i)) →
      (l.filterMap g).map Prod.snd = l := by
  intro l
  induction l with
  | nil => intro _; simp
  | cons i t ih =>
    intro h
    obtain ⟨r, hr⟩ := h i (List.mem_cons_self _ _)
    simp [List.filterMap_cons, hr, ih (fun j hj => h j (List.mem_cons_of_mem _ hj))]

/-- Records produced for indices outside the list do not exist: filtering a
`filterMap` by an absent slice index gives nothing. -/
lemma filter_snd_filterMap_not_mem (g : Nat → Option (MeasureRow × Nat))
    (hg : ∀ j p, g j = some p → p.2 = j) (i : Nat) :
    ∀ l : List Nat, i ∉ l →
      ((l.filterMap g).filter (fun p => p.2 == i)) = [] := by
  intro l
  induction l with
  | nil => intro _; simp
  | cons j t ih =>
    intro hmem
    have hji : j ≠ i := fun h => hmem (h ▸ List.mem_cons_self _ _)
    have hti : i ∉ t := fun h => hmem (List.mem_cons_of_mem _ h)
    cases hj : g j with
    | none => simp [List.filterMap_cons, hj, ih hti]
    | some p =>
      have hp2 : p.2 = j := hg j p hj
      simp [List.filterMap_cons, hj, List.filter_cons, hp2, hji, ih hti]

/-- Filtering a `filterMap` over distinct indices by one member index leaves
exactly that index's contribution. -/
lemma filter_snd_filterMap_mem (g : Nat → Option (MeasureRow × Nat))
    (hg : ∀ j p, g j = some p → p.2 = j) (i : Nat) :
    ∀ l : List Nat, l.Nodup → i ∈ l →
      ((l.filterMap g).filter (fun p => p.2 == i)) = (g i).toList := by
  intro l
  induction l with
  | nil => intro _ h; simp at h
  | cons j t ih =>
    intro hnd hmem
    have hndt : t.Nodup := (List.nodup_cons.mp hnd).2
    have hjt : j ∉ t := (List.nodup_cons.mp hnd).1
    rcases List.mem_cons.mp hmem with rfl | hit
    · cases hj : g i with
      | none =>
        simp [List.filterMap_cons, hj, filter_snd_filterMap_not_mem g hg i t hjt]
      | some p =>
        have hp2 : p.2 = i := hg i p hj
        simp [List.filterMap_cons, hj, List.filter_cons, hp2,
          filter_snd_filterMap_not_mem g hg i t hjt]
    · have hji : j ≠ i := fun h => hjt (h ▸ hit)
      cases hj : g j with
      | none => simp [List.filterMap_cons, hj, ih hndt hit]
      | some p =>
        have hp2 : p.2 = j := hg j p hj
        simp [List.filterMap_cons, hj, List.filter_cons, hp2, hji, ih hndt hit]

/-- The record extractor of the measuring loop tags each record with its
slice index. -/
lemma rtAfter_tag (measure : Nat → Option MeasureRow) (rt0 : List MeasureRow) :
    ∀ j p, ((rtAfter measure rt0 j).getLast?).map (fun r => (r, j)) = some p →
      p.2 = j := by
  intro j p hp
  cases hl : (rtAfter measure rt0 j).getLast? with
  | none => rw [hl] at hp; simp at hp
  | some r =>
    rw [hl] at hp
    simp only [Option.map_some', Option.some_inj] at hp
    rw [← hp]

/-- C3 counterexample.  A mechanism that yields data for slice 1 but none for
slice 2 still produces a record for slice 2: the skip test looks at the whole
shared results table, which is already non-empty, so slice 2 is not skipped
as the claim requires. -/
theorem apply_roi_and_measure_skip_cex :
    cexMeasure 2 = none ∧
    ((apply_roi_and_measure cexMeasure 2 []).2).map Prod.snd = [1, 2] := by
  decide

/-- C3 amended.  With a valid ROI yielding data on every slice the Measurer
produces exactly N records with slice positions 1..N in order and no gaps;
but a slice for which the mechanism yields no data is skipped only when the
process-wide results table is empty at that point — otherwise a record
holding the table's current last row is appended for that slice. -/
theorem apply_roi_and_measure_amended (measure : Nat → Option MeasureRow)
    (N : Nat) (rt0 : List MeasureRow) :
    ((∀ i ∈ List.range' 1 N, (measure i).isSome) →
      ((apply_roi_and_measure measure N rt0).2).map Prod.snd = List.range' 1 N) ∧
    (∀ i ∈ List.range' 1 N, measure i = none →
      ((apply_roi_and_measure measure N rt0).2).filter (fun p => p.2 == i) =
        (((rtAfter measure rt0 (i - 1)).getLast?).map (fun r => (r, i))).toList) := by
  constructor
  · intro hall
    rw [apply_roi_and_measure_eq]
    apply map_snd_filterMap_eq
    intro i hi
    have h1 : 1 ≤ i := (List.mem_range'_1.mp hi).1
    obtain ⟨j, rfl⟩ : ∃ j, i = j + 1 := ⟨i - 1, by omega⟩
    obtain ⟨row, hrow⟩ := Option.isSome_iff_exists.mp (hall (j + 1) hi)
    refine ⟨row, ?_⟩
    rw [rtAfter_succ, hrow]
    simp [List.getLast?_concat]
  · intro i hi hnone
    rw [apply_roi_and_measure_eq]
    rw [filter_snd_filterMap_mem _ (rtAfter_tag measure rt0) i _
      (List.nodup_range' 1 N) hi]
    have h1 : 1 ≤ i := (List.mem_range'_1.mp hi).1
    obtain ⟨j, rfl⟩ : ∃ j, i = j + 1 := ⟨i - 1, by omega⟩
    rw [rtAfter_succ, hnone]
    simp

/-- C3 amended witness: a 2-slice stack measured with data on every slice
gives records for slices 1 and 2; the gap-mechanism instance records slice 2
with the stale last row. -/
theorem apply_roi_and_measure_amended_witness :
    ((apply_roi_and_measure (fun _ => some crow) 2 []).2).map Prod.snd = [1, 2] ∧
    ((apply_roi_and_measure cexMeasure 2 []).2).filter (fun p => p.2 == 2) =
      [(crow, 2)] := by
  have h1 := (apply_roi_and_measure_amended (fun _ => some crow) 2 []).1
    (fun i _ => rfl)
  have h2 := (apply_roi_and_measure_amended cexMeasure 2 []).2 2 (by decide) (by decide)
  refine ⟨by simpa using h1, ?_⟩
  rw [h2]
  decide

/-- C9.  The Measurer reads slice values from the last row of the
process-wide results table, which is never cleared: once the table is
non-empty when the loop starts, every slice 1..N gets a record (the zero-row
skip branch is unreachable), and a slice for which the mechanism appends no
new row is recorded with the table's previous last row — stale values —
rather than being skipped. -/
theorem apply_roi_and_measure_stale (measure : Nat → Option MeasureRow)
    (N : Nat) (rt0 : List MeasureRow) (h0 : rt0 ≠ []) :
    ((apply_roi_and_measure measure N rt0).2).map Prod.snd = List.range' 1 N ∧
    ∀ i ∈ List.range' 1 N, measure i = none →
      ∃ r, (rtAfter measure rt0 (i - 1)).getLast? = some r ∧
        ((apply_roi_and_measure measure N rt0).2).filter (fun p => p.2 == i) =
          [(r, i)] := by
  have hne : ∀ i, rtAfter measure rt0 i ≠ [] := by
    intro i h
    unfold rtAfter at h
    exact h0 (List.append_eq_nil.mp h).1
  constructor
  · rw [apply_roi_and_measure_eq]
    apply map_snd_filterMap_eq
    intro i _
    obtain ⟨r, hr⟩ := Option.isSome_iff_exists.mp
      (List.getLast?_isSome.mpr (hne i))
    exact ⟨r, by rw [hr]; rfl⟩
  · intro i hi hnone
    have h1 : 1 ≤ i := (List.mem_range'_1.mp hi).1
    obtain ⟨j, rfl⟩ : ∃ j, i = j + 1 := ⟨i - 1, by omega⟩
    obtain ⟨r, hr⟩ := Option.isSome_iff_exists.mp
      (List.getLast?_isSome.mpr (hne j))
    refine ⟨r, by simpa using hr, ?_⟩
    rw [apply_roi_and_measure_eq]
    rw [filter_snd_filterMap_mem _ (rtAfter_tag measure rt0) (j + 1) _
      (List.nodup_range' 1 N) hi]
    rw [rtAfter_succ, hnone]
    simp [hr]

/-- C9 witness: a non-empty inherited results table and a mechanism that
never yields data still records slice 1 with the stale row. -/
theorem apply_roi_and_measure_stale_witness :
    ((apply_roi_and_measure (fun _ => none) 1 [crow]).2).map Prod.snd =
      List.range' 1 1 ∧
    ∃ r, (rtAfter (fun _ => none) [crow] 0).getLast? = some r ∧
      ((apply_roi_and_measure (fun _ => none) 1 [crow]).2).filter
        (fun p => p.2 == 1) = [(r, 1)] := by
  have h := apply_roi_and_measure_stale (fun _ => none) 1 [crow] (by simp)
  exact ⟨h.1, h.2 1 (by decide) rfl⟩

/-- A guarded accumulate-append fold is the flat map of the filtered list. -/
lemma foldl_guard_append {α β : Type} (q : α → Bool) (g : α → List β) :
    ∀ (names : List α) (acc : List β),
      names.foldl (fun acc2 x => if q x then acc2 ++ g x else acc2) acc =
        acc ++ (names.filter q).flatMap g := by
  intro names
  induction names with
  | nil => intro acc; simp
  | cons x t ih =>
    intro acc
    cases hq : q x with
    | false => simp [List.foldl_cons, hq, ih]
    | true => simp [List.foldl_cons, hq, ih, List.append_assoc]

/-- An accumulate-append fold is the flat map of the list. -/
lemma foldl_append_flatMap {α β : Type} (h : α → List β) :
    ∀ (l : List α) (acc : List β),
      l.foldl (fun acc x => acc ++ h x) acc = acc ++ l.flatMap h := by
  intro l
  induction l with
  | nil => intro acc; simp
  | cons x t ih => intro acc; simp [List.foldl_cons, ih, List.append_assoc]

/-- A nested guarded fold over a walk, normalized to a flat map over the
matched names of each directory. -/
lemma walk_foldl_norm {β : Type} (q : String → Bool)
    (g : String → String → List β) :
    ∀ (walk : List (String × List String)) (acc : List β),
      walk.foldl (fun acc rf =>
        rf.2.foldl (fun acc2 n => if q n then acc2 ++ g rf.1 n else acc2) acc) acc =
        acc ++ walk.flatMap (fun rf => (rf.2.filter q).flatMap (g rf.1)) := by
  intro walk
  induction walk with
  | nil => intro acc; simp
  | cons rf t ih =>
    intro acc
    rw [List.foldl_cons, foldl_guard_append q (g rf.1) rf.2 acc, ih,
      List.flatMap_cons, List.append_assoc]

/-- Normal form of the batch image-load trace: the matched files in walk
order, each contributing its per-file `process` loads. -/
lemma runLoadTrace_eq (fileFilter ext : String) (walk : List (String × List String))
    (srcOk : String → Bool) (bgOk : Bool) (bgPath : String) :
    runLoadTrace fileFilter ext walk srcOk bgOk bgPath =
      (matchedPaths fileFilter ext walk).flatMap
        (fun p => processLoads srcOk bgOk p bgPath) := by
  unfold runLoadTrace matchedPaths
  rw [walk_foldl_norm (matchesFile fileFilter ext)
    (fun root n => processLoads srcOk bgOk (joinPath root n) bgPath) walk []]
  rw [List.flatMap_assoc]
  simp only [List.flatMap_map]
  rfl

/-- Background loads of a flat-mapped trace: one per path whose source image
opened. -/
lemma bgLoadCount_flatMap (srcOk : String → Bool) (bgOk : Bool) (bgPath : String) :
    ∀ ps : List String,
      bgLoadCount (ps.flatMap (fun p => processLoads srcOk bgOk p bgPath)) =
        (ps.filter srcOk).length := by
  intro ps
  induction ps with
  | nil => simp [bgLoadCount]
  | cons p t ih =>
    rw [List.flatMap_cons]
    unfold bgLoadCount at ih ⊢
    rw [List.countP_append, ih]
    cases hs : srcOk p with
    | false =>
      simp [processLoads, hs, List.filter_cons, List.countP_cons, isBgLoad]
    | true =>
      cases hb : bgOk with
      | false =>
        simp [processLoads, hs, hb, List.filter_cons, List.countP_cons, isBgLoad]
        omega
      | true =>
        simp [processLoads, hs, hb, List.filter_cons, List.countP_cons, isBgLoad]
        omega

/-- C7 counterexample.  A batch of two matched files whose sources open: the
background image file is opened twice during the batch, not once — `process`
re-opens `backgroundImagePath` for every file (line 96). -/
theorem background_reload_cex :
    bgLoadCount (runLoadTrace "" ".tif" [("d", ["a.tif", "b.tif"])]
      (fun _ => true) true "bg.tif") = 2 := by
  decide

/-- C7 amended.  The background path is fixed once per batch, but the
background image is re-loaded from that path once for every matched file
whose source image opens successfully; each file's processing therefore uses
its own freshly loaded copy. -/
theorem background_loads_spec (fileFilter ext : String)
    (walk : List (String × List String)) (srcOk : String → Bool) (bgOk : Bool)
    (bgPath : String) :
    bgLoadCount (runLoadTrace fileFilter ext walk srcOk bgOk bgPath) =
      ((matchedPaths fileFilter ext walk).filter srcOk).length := by
  rw [runLoadTrace_eq]
  exact bgLoadCount_flatMap srcOk bgOk bgPath _

/-- C8.  The batch driver records an outcome for every matched file: the
result list is exactly the matched paths each paired with its own per-file
outcome, so an exception (an `Except.error` outcome) for one file is caught
and recorded at the per-file boundary and every later matched file is still
attempted — no per-file failure aborts the remainder of the batch. -/
theorem run_results_spec (fileFilter ext : String)
    (walk : List (String × List String))
    (procResult : String → Except String Unit) :
    run_results fileFilter ext walk procResult =
      (matchedPaths fileFilter ext walk).map (fun p => (p, procResult p)) ∧
    ∀ p ∈ matchedPaths fileFilter ext walk,
      (p, procResult p) ∈ run_results fileFilter ext walk procResult := by
  have hmain : run_results fileFilter ext walk procResult =
      (matchedPaths fileFilter ext walk).map (fun p => (p, procResult p)) := by
    unfold run_results matchedPaths
    rw [walk_foldl_norm (matchesFile fileFilter ext)
      (fun root n => [(joinPath root n, procResult (joinPath root n))]) walk []]
    simp only [List.nil_append, List.map_flatMap, List.map_map]
    simp only [← List.map_eq_flatMap]
    rfl
  refine ⟨hmain, ?_⟩
  intro p hp
  rw [hmain]
  exact List.mem_map.mpr ⟨p, hp, rfl⟩

/-- C8 witness: a batch of three matched files in which the middle one fails;
every file is attempted and recorded, including those after the failure. -/
theorem run_results_spec_witness :
    run_results "" ".tif" [("d", ["a.tif", "bad.tif", "b.tif"])]
      (fun p => if p = "d/bad.tif" then Except.error "boom" else Except.ok ()) =
      [("d/a.tif", Except.ok ()), ("d/bad.tif", Except.error "boom"),
       ("d/b.tif", Except.ok ())] ∧
    ("d/b.tif", (Except.ok () : Except String Unit)) ∈
      run_results "" ".tif" [("d", ["a.tif", "bad.tif", "b.tif"])]
        (fun p => if p = "d/bad.tif" then Except.error "boom" else Except.ok ()) := by
  have h := run_results_spec "" ".tif" [("d", ["a.tif", "bad.tif", "b.tif"])]
    (fun p => if p = "d/bad.tif" then Except.error "boom" else Except.ok ())
  refine ⟨?_, h.2 "d/b.tif" (by decide)⟩
  rw [h.1]
  rfl

/-- Appending a value under an existing key leaves the key list unchanged. -/
lemma dictKeys_dictAppend_mem (d : DictSL) (k v : String) (h : k ∈ dictKeys d) :
    dictKeys (dictAppend d k v) = dictKeys d := by
  induction d with
  | nil => simp [dictKeys] at h
  | cons kv rest ih =>
    rcases kv with ⟨k0, l0⟩
    cases hk : (k0 == k) with
    | true => simp [dictAppend, hk, dictKeys]
    | false =>
      have hne : k0 ≠ k := by
        intro he
        rw [he] at hk
        simp at hk
      have hmem : k ∈ dictKeys rest := by
        rcases List.mem_cons.mp h with he | hm
        · exact absurd he.symm hne
        · exact hm
      simp only [dictAppend, hk, Bool.false_eq_true, if_false, dictKeys,
        List.map_cons]
      exact congrArg (fun l => k0 :: l) (ih hmem)

/-- Appending a value under a fresh key adds that key at the end. -/
lemma dictKeys_dictAppend_not_mem (d : DictSL) (k v : String)
    (h : k ∉ dictKeys d) :
    dictKeys (dictAppend d k v) = dictKeys d ++ [k] := by
  induction d with
  | nil => simp [dictAppend, dictKeys]
  | cons kv rest ih =>
    rcases kv with ⟨k0, l0⟩
    have hne : k0 ≠ k := by
      intro he
      exact h (by simp [dictKeys, he])
    have hk : (k0 == k) = false := by
      simpa using hne
    have hrest : k ∉ dictKeys rest := by
      intro hm
      exact h (by simp [dictKeys] at hm ⊢; exact Or.inr hm)
    simp only [dictAppend, hk, Bool.false_eq_true, if_false, dictKeys,
      List.map_cons, List.cons_append]
    exact congrArg (fun l => k0 :: l) (ih hrest)

/-- Boolean membership agrees with propositional membership on string lists. -/
lemma contains_eq_decide_mem (l : List String) (k : String) :
    l.contains k = decide (k ∈ l) := by
  induction l with
  | nil => rfl
  | cons a as ih =>
    by_cases h : k = a
    · simp [List.contains_cons, h]
    · simp [List.contains_cons, h, ih]

/-- A bare access under an existing key changes nothing. -/
lemma dictTouch_mem (d : DictSL) (k : String) (h : k ∈ dictKeys d) :
    dictTouch d k = d := by
  unfold dictTouch
  rw [contains_eq_decide_mem]
  simp [h]

/-- A bare access under a fresh key adds it, with an empty list, at the end. -/
lemma dictKeys_dictTouch_not_mem (d : DictSL) (k : String) (h : k ∉ dictKeys d) :
    dictKeys (dictTouch d k) = dictKeys d ++ [k] := by
  unfold dictTouch
  rw [contains_eq_decide_mem]
  unfold dictKeys at h ⊢
  simp [h]

/-- The row loop never changes the key list when its key already exists. -/
lemma dictKeys_rowsFold_mem (sel : CsvRowIn → Option String) (k : String) :
    ∀ (rows : List CsvRowIn) (d : DictSL), k ∈ dictKeys d →
      dictKeys (rowsFold sel k rows d) = dictKeys d := by
  intro rows
  induction rows with
  | nil => intro d _; rfl
  | cons row t ih =>
    intro d hmem
    cases hs : sel row with
    | none =>
      have : rowsFold sel k (row :: t) d = rowsFold sel k t d := by
        simp [rowsFold, List.foldl_cons, hs]
      rw [this, ih d hmem]
    | some v =>
      have : rowsFold sel k (row :: t) d = rowsFold sel k t (dictAppend d k v) := by
        simp [rowsFold, List.foldl_cons, hs]
      rw [this, ih (dictAppend d k v)
        (by rw [dictKeys_dictAppend_mem d k v hmem]; exact hmem),
        dictKeys_dictAppend_mem d k v hmem]

/-- Processing one file's rows and then touching the key (line 69) appends
exactly that one fresh key at the end of the key list. -/
lemma dictKeys_rowsFold_touch (sel : CsvRowIn → Option String) (k : String) :
    ∀ (rows : List CsvRowIn) (d : DictSL), k ∉ dictKeys d →
      dictKeys (dictTouch (rowsFold sel k rows d) k) = dictKeys d ++ [k] := by
  intro rows
  induction rows with
  | nil =>
    intro d h
    have : rowsFold sel k [] d = d := rfl
    rw [this, dictKeys_dictTouch_not_mem d k h]
  | cons row t ih =>
    intro d h
    cases hs : sel row with
    | none =>
      have : rowsFold sel k (row :: t) d = rowsFold sel k t d := by
        simp [rowsFold, List.foldl_cons, hs]
      rw [this, ih d h]
    | some v =>
      have hstep : rowsFold sel k (row :: t) d = rowsFold sel k t (dictAppend d k v) := by
        simp [rowsFold, List.foldl_cons, hs]
      have hkeys : dictKeys (dictAppend d k v) = dictKeys d ++ [k] :=
        dictKeys_dictAppend_not_mem d k v h
      have hmem : k ∈ dictKeys (dictAppend d k v) := by
        rw [hkeys]; simp
      have hfold : dictKeys (rowsFold sel k t (dictAppend d k v)) =
          dictKeys d ++ [k] := by
        rw [dictKeys_rowsFold_mem sel k t _ hmem, hkeys]
      rw [hstep, dictTouch_mem _ k (by rw [hfold]; simp), hfold]

/-- The accumulating fold of `compile_integrated_density`: starting from
dictionaries whose keys avoid the incoming distinct file names, both
dictionaries end with their original keys followed by the processed `.csv`
file names in file-processing order. -/
lemma compile_fold_keys :
    ∀ (files : List (String × List CsvRowIn)) (st : DictSL × DictSL × Nat),
      (∀ f ∈ files, f.1 ∉ dictKeys st.1) →
      (∀ f ∈ files, f.1 ∉ dictKeys st.2.1) →
      (files.map Prod.fst).Nodup →
      dictKeys (files.foldl
        (fun st f => if strEndsWith f.1 ".csv" then compileFileStep st f else st)
        st).1 =
        dictKeys st.1 ++
          ((files.map Prod.fst).filter (fun n => strEndsWith n ".csv")) ∧
      dictKeys (files.foldl
        (fun st f => if strEndsWith f.1 ".csv" then compileFileStep st f else st)
        st).2.1 =
        dictKeys st.2.1 ++
          ((files.map Prod.fst).filter (fun n => strEndsWith n ".csv")) := by
  intro files
  induction files with
  | nil => intro st _ _ _; simp
  | cons f t ih =>
    intro st h1 h2 hnd
    have hndt : (t.map Prod.fst).Nodup := (List.nodup_cons.mp (by simpa using hnd)).2
    have hft : f.1 ∉ t.map Prod.fst := (List.nodup_cons.mp (by simpa using hnd)).1
    cases hcsv : strEndsWith f.1 ".csv" with
    | false =>
      have hstep : (f :: t).foldl
          (fun st f => if strEndsWith f.1 ".csv" then compileFileStep st f else st) st =
          t.foldl
          (fun st f => if strEndsWith f.1 ".csv" then compileFileStep st f else st) st := by
        simp [List.foldl_cons, hcsv]
      rw [hstep]
      have := ih st (fun g hg => h1 g (List.mem_cons_of_mem _ hg))
        (fun g hg => h2 g (List.mem_cons_of_mem _ hg)) hndt
      simpa [List.filter_cons, hcsv] using this
    | true =>
      have hstep : (f :: t).foldl
          (fun st f => if strEndsWith f.1 ".csv" then compileFileStep st f else st) st =
          t.foldl
          (fun st f => if strEndsWith f.1 ".csv" then compileFileStep st f else st)
          (compileFileStep st f) := by
        simp [List.foldl_cons, hcsv]
      have hk1 : dictKeys (compileFileStep st f).1 = dictKeys st.1 ++ [f.1] :=
        dictKeys_rowsFold_touch (fun r => r.intden) f.1 f.2 st.1
          (h1 f (List.mem_cons_self _ _))
      have hk2 : dictKeys (compileFileStep st f).2.1 = dictKeys st.2.1 ++ [f.1] :=
        dictKeys_rowsFold_touch (fun r => r.rawintden) f.1 f.2 st.2.1
          (h2 f (List.mem_cons_self _ _))
      have hfresh1 : ∀ g ∈ t, g.1 ∉ dictKeys (compileFileStep st f).1 := by
        intro g hg hmem
        rw [hk1] at hmem
        rcases List.mem_append.mp hmem with hm | hm
        · exact h1 g (List.mem_cons_of_mem _ hg) hm
        · exact hft ((List.mem_singleton.mp hm) ▸ List.mem_map_of_mem Prod.fst hg)
      have hfresh2 : ∀ g ∈ t, g.1 ∉ dictKeys (compileFileStep st f).2.1 := by
        intro g hg hmem
        rw [hk2] at hmem
        rcases List.mem_append.mp hmem with hm | hm
        · exact h2 g (List.mem_cons_of_mem _ hg) hm
        · exact hft ((List.mem_singleton.mp hm) ▸ List.mem_map_of_mem Prod.fst hg)
      obtain ⟨ih1, ih2⟩ := ih (compileFileStep st f) hfresh1 hfresh2 hndt
      rw [hstep]
      constructor
      · rw [ih1, hk1]
        simp [List.filter_cons, hcsv, List.append_assoc]
      · rw [ih2, hk2]
        simp [List.filter_cons, hcsv, List.append_assoc]

/-- Renaming the values of every entry keeps the key list. -/
lemma dictKeys_map_values (d : DictSL) (f : String × List String → List String) :
    dictKeys (d.map (fun kv => (kv.1, f kv))) = dictKeys d := by
  unfold dictKeys
  rw [List.map_map]
  rfl

/-- The `.csv` names of a listing, in listing order. -/
def csvNames (files : List (String × List CsvRowIn)) : List String :=
  (files.map Prod.fst).filter (fun n => strEndsWith n ".csv")

/-- C4.  The aggregate table's header places all `IntDen_*` columns first, in
file-processing order (the order in which the aggregator scans the `.csv`
files), followed by all `RawIntDen_*` columns in that same order. -/
theorem compile_headers_spec (files : List (String × List CsvRowIn))
    (hnd : (files.map Prod.fst).Nodup) :
    (compile_integrated_density files).1 =
      (csvNames files).map (fun k => "IntDen_" ++ k) ++
      (csvNames files).map (fun k => "RawIntDen_" ++ k) := by
  obtain ⟨hk1, hk2⟩ := compile_fold_keys files (([] : DictSL), ([] : DictSL), 0)
    (by intro f _ h; simp [dictKeys] at h)
    (by intro f _ h; simp [dictKeys] at h) hnd
  unfold compile_integrated_density
  simp only [dictKeys_map_values]
  rw [hk1, hk2]
  simp [csvNames, dictKeys]

/-- C4 witness: three listed files, one not ending in `.csv`; the header is
the `IntDen_*` columns of the two CSV files in scan order followed by their
`RawIntDen_*` columns in the same order. -/
theorem compile_headers_spec_witness :
    (compile_integrated_density
      [("b.csv", [⟨some "1", some "2"⟩, ⟨some "3", none⟩]), ("a.txt", []),
       ("a.csv", [⟨none, some "9"⟩])]).1 =
      ["IntDen_b.csv", "IntDen_a.csv", "RawIntDen_b.csv", "RawIntDen_a.csv"] := by
  have h := compile_headers_spec
    [("b.csv", [⟨some "1", some "2"⟩, ⟨some "3", none⟩]), ("a.txt", []),
     ("a.csv", [⟨none, some "9"⟩])] (by decide)
  rw [h]
  decide

/-- Column names with the `IntDen_` tag determine the file name. -/
lemma intden_name_inj (a b : String) (h : "IntDen_" ++ a = "IntDen_" ++ b) :
    a = b := by
  apply String.ext
  have hd := congrArg String.data h
  simp only [String.data_append] at hd
  exact (List.append_right_inj _).mp hd

/-- An `IntDen_` column name is never a `RawIntDen_` column name. -/
lemma intden_ne_rawintden (a b : String) : "IntDen_" ++ a ≠ "RawIntDen_" ++ b := by
  intro h
  have hd := congrArg (fun s => s.data.head?) h
  have h1 : ("IntDen_" ++ a).data.head? = some 'I' := by
    rw [String.data_append]
    rfl
  have h2 : ("RawIntDen_" ++ b).data.head? = some 'R' := by
    rw [String.data_append]
    rfl
  dsimp only at hd
  rw [h1, h2] at hd
  exact absurd hd (by decide)

/-- C10.  The Aggregator takes as input exactly the files of the CSV output
directory whose names end in `.csv`: each such file contributes an
`IntDen_<name>` column, a non-`.csv` file contributes nothing, and in
particular a listing containing the Aggregator's own previous output
`compiled_density_data.csv` gets a column for it — a second run consumes its
own output. -/
theorem compile_inputs_spec (files : List (String × List CsvRowIn))
    (hnd : (files.map Prod.fst).Nodup) :
    (∀ f ∈ files, strEndsWith f.1 ".csv" = true →
      ("IntDen_" ++ f.1) ∈ (compile_integrated_density files).1) ∧
    (∀ f ∈ files, strEndsWith f.1 ".csv" = false →
      ("IntDen_" ++ f.1) ∉ (compile_integrated_density files).1) ∧
    (∀ rows, ("compiled_density_data.csv", rows) ∈ files →
      "IntDen_compiled_density_data.csv" ∈ (compile_integrated_density files).1) := by
  have hh := compile_headers_spec files hnd
  have hpos : ∀ f ∈ files, strEndsWith f.1 ".csv" = true →
      ("IntDen_" ++ f.1) ∈ (compile_integrated_density files).1 := by
    intro f hf hcsv
    rw [hh]
    apply List.mem_append.mpr
    left
    refine List.mem_map.mpr ⟨f.1, ?_, rfl⟩
    unfold csvNames
    exact List.mem_filter.mpr ⟨List.mem_map_of_mem Prod.fst hf, by simpa using hcsv⟩
  refine ⟨hpos, ?_, ?_⟩
  · intro f hf hcsv hmem
    rw [hh] at hmem
    rcases List.mem_append.mp hmem with hm | hm
    · obtain ⟨k, hk, he⟩ := List.mem_map.mp hm
      have hkf : k = f.1 := intden_name_inj k f.1 he
      have hkcsv : strEndsWith k ".csv" = true := by
        have hk' : k ∈ (files.map Prod.fst).filter (fun n => strEndsWith n ".csv") := hk
        exact (List.mem_filter.mp hk').2
      rw [hkf] at hkcsv
      rw [hkcsv] at hcsv
      exact absurd hcsv (by simp)
    · obtain ⟨k, hk, he⟩ := List.mem_map.mp hm
      exact intden_ne_rawintden f.1 k he.symm
  · intro rows hrow
    have := hpos ("compiled_density_data.csv", rows) hrow
      (show strEndsWith "compiled_density_data.csv" ".csv" = true by decide)
    simpa using this

/-- C10 witness: a listing containing a stray `.tif` and the aggregator's own
previous `compiled_density_data.csv` output; the compiled output gets a
column, the `.tif` does not. -/
theorem compile_inputs_spec_witness :
    "IntDen_compiled_density_data.csv" ∈
      (compile_integrated_density
        [("x.tif", []), ("compiled_density_data.csv", [⟨some "4", some "5"⟩])]).1 ∧
    ("IntDen_" ++ "x.tif") ∉
      (compile_integrated_density
        [("x.tif", []), ("compiled_density_data.csv", [⟨some "4", some "5"⟩])]).1 := by
  have h := compile_inputs_spec
    [("x.tif", []), ("compiled_density_data.csv", [⟨some "4", some "5"⟩])] (by decide)
  exact ⟨h.2.2 [⟨some "4", some "5"⟩] (by decide),
    h.2.1 ("x.tif", []) (by decide) (by decide)⟩

end FijiAnalysis
